import Mathlib

/-!
Verification of the `TensorData` byte-backed tensor storage container
(`crates/burn-tensor/src/tensor/data.rs`).

The model is a shallow embedding: the byte buffer is a `List Byte`
(with `Byte := Fin 256`), machine values are represented by their byte
patterns, and each Rust element type `E: Element` is modelled by an
`ElemTy` record carrying its dtype tag, byte width and (de)serialization
between the carrier type and raw bytes.  Numeric cross-dtype conversion
(`ElementConversion::elem`, implemented outside the provided source) is
kept as an explicit function parameter `conv : DType → List Byte → β`,
keyed by the source dtype, exactly mirroring how the source dispatches
on `self.dtype` and converts each reinterpreted element.
-/

/-- A raw byte of the buffer. -/
abbrev Byte := Fin 256

/-- Modelled from the spec (§3) and the in-file usages: the quantization
integer width enumeration from the quantization module (not under the
provided sources). Only 8-bit signed integers exist. -/
inductive QuantizationType where
  | qint8
  deriving DecidableEq, Repr

/-- Modelled from the spec (§3): quantization scheme, from the
quantization module (not under the provided sources). -/
inductive QuantizationScheme where
  | perTensorAffine (q : QuantizationType)
  | perTensorSymmetric (q : QuantizationType)
  deriving DecidableEq, Repr

/-- Four raw bytes: the byte pattern of a 4-byte machine value (`f32`
bit pattern as stored by `bytemuck::bytes_of`). No floating-point
semantics is needed: the container only moves these bytes around. -/
abbrev Bytes4 := Byte × Byte × Byte × Byte

/-- The byte list of a 4-byte pattern. -/
def bytes4 (x : Bytes4) : List Byte := [x.1, x.2.1, x.2.2.1, x.2.2.2]

/-- Modelled from the spec (§3) and the in-file usages: the
`QuantizationStrategy` enum from the quantization module (not under the
provided sources). `PerTensorAffineInt8` wraps
`AffineQuantization<f32, i8, i32>` whose public fields are
`scale: f32` and `offset: Q = i8` (the third generic parameter is the
accumulation precision, carried only in phantom position); this is
pinned by the provided source itself: `tensor_bytes` removes
`size_of::<i8>()` bytes for the affine offset and the in-file tests
recover the packed offset through `get_q_params::<f32, i8>`.
`PerTensorSymmetricInt8` wraps `SymmetricQuantization<f32, i8>` with the
single field `scale: f32`. Scales are kept as their 4-byte patterns and
the affine offset as its 1-byte pattern. -/
inductive QuantizationStrategy where
  | perTensorAffineInt8 (scale : Bytes4) (offset : Byte)
  | perTensorSymmetricInt8 (scale : Bytes4)
  deriving DecidableEq, Repr

/-- `QuantizationStrategy::scheme()` (quantization module, not under the
provided sources; the scheme merely forgets the numeric parameters). -/
def QuantizationStrategy.scheme : QuantizationStrategy → QuantizationScheme
  | .perTensorAffineInt8 _ _ => .perTensorAffine .qint8
  | .perTensorSymmetricInt8 _ => .perTensorSymmetric .qint8

/-- The `DType` tag (`burn-tensor`; the enum itself lives outside the
provided sources but its variants are fixed by the spec §3 and by the
exhaustive matches of `data.rs`). -/
inductive DType where
  | I8 | I16 | I32 | I64
  | U8 | U32 | U64
  | F16 | BF16 | F32 | F64
  | Bool
  | QFloat (scheme : QuantizationScheme)
  deriving DecidableEq, Repr

/-- Modelled from the spec (§3): `DType::size()`, the fixed byte width of
each non-quantized variant; for `QFloat` the storage element width is the
quantized integer width, one byte. (The method lives outside the provided
sources.) -/
def DType.size : DType → Nat
  | .I8 => 1
  | .I16 => 2
  | .I32 => 4
  | .I64 => 8
  | .U8 => 1
  | .U32 => 4
  | .U64 => 8
  | .F16 => 2
  | .BF16 => 2
  | .F32 => 4
  | .F64 => 8
  | .Bool => 1
  | .QFloat _ => 1

/-- Whether a dtype is the quantized variant. -/
def dtypeIsQFloat : DType → Bool
  | .QFloat _ => true
  | _ => false

/-- The recoverable error kind of `data.rs` (`DataError`); the embedded
message strings are dropped. -/
inductive DataError where
  | CastError
  | TypeMismatch
  deriving DecidableEq, Repr

/-- An element type usable only for reading values out of a buffer:
dtype tag, byte width, and decoding of one `width`-byte chunk
(`bytemuck` reinterpretation). -/
structure ReadElem (β : Type) where
  dtype : DType
  width : Nat
  ofBytes : List Byte → β

/-- Model of a Rust `E: Element` implementation (the concrete impls live
outside the provided sources; the spec §3 fixes each dtype's width).
`toBytes` is the raw byte image of a value (`bytemuck::bytes_of`,
little-endian machine layout), `ofBytes` the reinterpretation of a chunk
back into a value; they are mutually inverse on well-formed chunks and
every value serializes to exactly `width` bytes, with `width` agreeing
with the dtype tag's width. -/
structure ElemTy (α : Type) where
  dtype : DType
  width : Nat
  toBytes : α → List Byte
  ofBytes : List Byte → α
  length_toBytes : ∀ a, (toBytes a).length = width
  ofBytes_toBytes : ∀ a, ofBytes (toBytes a) = a
  width_pos : 0 < width
  width_eq : width = dtype.size

/-- Forget the serialization direction. -/
def ElemTy.toRead (T : ElemTy α) : ReadElem α := ⟨T.dtype, T.width, T.ofBytes⟩

/-- `i8` as an element type; values are carried as their 1-byte pattern. -/
def i8E : ElemTy Byte where
  dtype := .I8
  width := 1
  toBytes := fun b => [b]
  ofBytes := fun l => l.getD 0 0
  length_toBytes := fun _ => rfl
  ofBytes_toBytes := fun _ => rfl
  width_pos := Nat.one_pos
  width_eq := rfl

/-- `u8` as an element type. -/
def u8E : ElemTy Byte where
  dtype := .U8
  width := 1
  toBytes := fun b => [b]
  ofBytes := fun l => l.getD 0 0
  length_toBytes := fun _ => rfl
  ofBytes_toBytes := fun _ => rfl
  width_pos := Nat.one_pos
  width_eq := rfl

/-- `f32` as an element type; values are carried as their 4-byte bit
pattern (the container never computes with floats, it only stores them). -/
def f32E : ElemTy Bytes4 where
  dtype := .F32
  width := 4
  toBytes := bytes4
  ofBytes := fun l => (l.getD 0 0, l.getD 1 0, l.getD 2 0, l.getD 3 0)
  length_toBytes := fun _ => rfl
  ofBytes_toBytes := fun _ => rfl
  width_pos := by decide
  width_eq := rfl

/-- `i32` as an element type (4-byte pattern). -/
def i32E : ElemTy Bytes4 where
  dtype := .I32
  width := 4
  toBytes := bytes4
  ofBytes := fun l => (l.getD 0 0, l.getD 1 0, l.getD 2 0, l.getD 3 0)
  length_toBytes := fun _ => rfl
  ofBytes_toBytes := fun _ => rfl
  width_pos := by decide
  width_eq := rfl

/-- Fuel-driven worker for `chunks` (structural recursion, so that the
kernel can evaluate it on concrete inputs). -/
def chunksAux (w : Nat) : Nat → List α → List (List α)
  | 0, _ => []
  | fuel + 1, l =>
      if w = 0 ∨ l.length < w then []
      else (l.take w) :: chunksAux w fuel (l.drop w)

/-- Split a list into consecutive chunks of `w` elements, dropping an
incomplete remainder (the reinterpretation `bytemuck::cast_slice` and the
`len / size` arithmetic of `into_vec`/`convert_inplace` only ever touch
the first `len / w` full windows). -/
def chunks (w : Nat) (l : List α) : List (List α) :=
  chunksAux w l.length l

theorem chunksAux_nil (w : Nat) (n : Nat) :
    chunksAux w n ([] : List α) = [] := by
  cases n with
  | zero => rfl
  | succ m =>
      rw [chunksAux]
      exact if_pos (by rcases Nat.eq_zero_or_pos w with h | h <;> simp [h])

theorem chunksAux_of_le (w : Nat) :
    ∀ (n m : Nat) (l : List α), l.length ≤ n → l.length ≤ m →
      chunksAux w n l = chunksAux w m l := by
  intro n
  induction n with
  | zero =>
      intro m l hn _
      have : l = [] := List.eq_nil_of_length_eq_zero (by omega)
      subst this
      rw [chunksAux_nil, chunksAux_nil]
  | succ k ih =>
      intro m l hn hm
      cases l with
      | nil => rw [chunksAux_nil, chunksAux_nil]
      | cons x xs =>
          have hm1 : 1 ≤ m := by
            simp only [List.length_cons] at hm
            omega
          obtain ⟨m1, rfl⟩ : ∃ m1, m = m1 + 1 :=
            ⟨m - 1, by omega⟩
          rw [chunksAux, chunksAux]
          by_cases hc : w = 0 ∨ (x :: xs).length < w
          · rw [if_pos hc, if_pos hc]
          · rw [if_neg hc, if_neg hc]
            congr 1
            apply ih
            · simp only [not_or, not_lt] at hc
              simp only [List.length_drop, List.length_cons] at *
              omega
            · simp only [not_or, not_lt] at hc
              simp only [List.length_drop, List.length_cons] at *
              omega

/-- One-step unfolding of `chunks`. -/
theorem chunks_eq (w : Nat) (l : List α) :
    chunks w l = if w = 0 ∨ l.length < w then []
      else (l.take w) :: chunks w (l.drop w) := by
  cases l with
  | nil =>
      rw [show chunks w ([] : List α) = chunksAux w 0 [] from rfl,
        chunksAux_nil]
      exact (if_pos (by rcases Nat.eq_zero_or_pos w with h | h <;>
        simp [h])).symm
  | cons x xs =>
      show chunksAux w (xs.length + 1) (x :: xs) = _
      rw [chunksAux]
      by_cases hc : w = 0 ∨ (x :: xs).length < w
      · rw [if_pos hc, if_pos hc]
      · rw [if_neg hc, if_neg hc]
        congr 1
        show chunksAux w xs.length _ = chunksAux w ((x :: xs).drop w).length _
        apply chunksAux_of_le
        · simp only [not_or, not_lt] at hc
          simp only [List.length_drop, List.length_cons]
          omega
        · exact le_refl _

theorem chunks_nil (w : Nat) : chunks w ([] : List α) = [] := by
  rw [chunks_eq]
  exact if_pos (by rcases Nat.eq_zero_or_pos w with h | h <;> simp [h])

theorem chunks_append_of_length (w : Nat) (hw : 0 < w) (l₁ l₂ : List α)
    (h : l₁.length = w) : chunks w (l₁ ++ l₂) = l₁ :: chunks w l₂ := by
  rw [chunks_eq]
  have hlen : (l₁ ++ l₂).length = w + l₂.length := by
    simp [List.length_append, h]
  rw [if_neg (by simp only [not_or, not_lt]; omega)]
  congr 1
  · rw [← h, List.take_left]
  · rw [← h, List.drop_left]

/-- Chunking the flattened image of a fixed-width serializer recovers the
per-element images. -/
theorem chunks_flatMap (w : Nat) (hw : 0 < w) (f : α → List Byte)
    (hf : ∀ a, (f a).length = w) (l : List α) :
    chunks w (l.flatMap f) = l.map f := by
  induction l with
  | nil => simp [chunks_nil]
  | cons x xs ih =>
      rw [List.flatMap_cons, chunks_append_of_length w hw _ _ (hf x), ih]
      rfl

theorem length_chunks (w : Nat) (l : List α) :
    (chunks w l).length = l.length / w := by
  by_cases hw : w = 0
  · subst hw
    rw [chunks_eq]
    simp
  · have hwpos : 0 < w := Nat.pos_of_ne_zero hw
    suffices h : ∀ n (l : List α), l.length = n →
        (chunks w l).length = l.length / w from h l.length l rfl
    intro n
    induction n using Nat.strong_induction_on with
    | _ n ih =>
      intro l hn
      rw [chunks_eq]
      by_cases hlt : l.length < w
      · rw [if_pos (Or.inr hlt)]
        simp [Nat.div_eq_of_lt hlt]
      · rw [if_neg (by simp [hw, hlt])]
        have hdrop : (l.drop w).length = l.length - w := List.length_drop w l
        have hrec : (chunks w (l.drop w)).length = (l.drop w).length / w :=
          ih (l.drop w).length (by omega) (l.drop w) rfl
        simp only [List.length_cons, hrec, hdrop]
        rw [Nat.div_eq_sub_div hwpos (not_lt.mp hlt)]

/-- `TensorData` (`data.rs`): dtype-tagged raw byte buffer with a shape. -/
structure TensorData where
  bytes : List Byte
  shape : List Nat
  dtype : DType
  deriving DecidableEq, Repr

/-- `TensorData::numel`: product of the shape dimensions. -/
def numel (shape : List Nat) : Nat := shape.prod

/-- `TensorData::num_elements`. -/
def TensorData.num_elements (d : TensorData) : Nat := numel d.shape

/-- `value_into_bytes`: the raw byte image of a typed vector. -/
def valueIntoBytes (T : ElemTy α) (value : List α) : List Byte :=
  value.flatMap T.toBytes

/-- `TensorData::init` (private constructor, no validation). -/
def TensorData.init (T : ElemTy α) (value : List α) (shape : List Nat)
    (dtype : DType) : TensorData :=
  { bytes := valueIntoBytes T value, shape := shape, dtype := dtype }

/-- `TensorData::new`: `validate_data_shape` truncates the values to
`numel shape` and asserts (a panic, modelled by `none`) that the
truncated length equals `numel shape`; on success the raw bytes of the
truncated values are stored under `E::dtype()`. -/
def TensorData.new? (T : ElemTy α) (value : List α) (shape : List Nat) :
    Option TensorData :=
  let value := value.take (numel shape)
  if value.length = numel shape then
    some (TensorData.init T value shape T.dtype)
  else
    none

/-- `TensorData::quantized`: same shape validation as `new`, then the
value bytes are followed by the packed parameter bytes — for the affine
strategy `bytemuck::bytes_of(&q.offset)` (the 1-byte `i8` offset) then
`bytemuck::bytes_of(&q.scale)` (the 4-byte `f32` scale); for the
symmetric strategy only the scale — under `DType::QFloat(scheme)`. -/
def TensorData.quantized? (T : ElemTy α) (value : List α) (shape : List Nat)
    (strategy : QuantizationStrategy) : Option TensorData :=
  let value := value.take (numel shape)
  if value.length = numel shape then
    let vb := valueIntoBytes T value
    let b := match strategy with
      | .perTensorAffineInt8 scale offset => vb ++ [offset] ++ bytes4 scale
      | .perTensorSymmetricInt8 scale => vb ++ bytes4 scale
    some { bytes := b, shape := shape, dtype := .QFloat strategy.scheme }
  else
    none

/-- `TensorData::as_slice`: requires the dtype tags to match, then a
checked reinterpretation of the byte buffer (`try_cast_slice`, which
fails with a cast error when the buffer length is not a multiple of the
element width). -/
def TensorData.asSlice (T : ElemTy α) (d : TensorData) :
    Except DataError (List α) :=
  if T.dtype = d.dtype then
    if T.width ∣ d.bytes.length then
      .ok ((chunks T.width d.bytes).map T.ofBytes)
    else
      .error .CastError
  else
    .error .TypeMismatch

/-- `TensorData::to_vec` (an owned copy of `as_slice`). -/
def TensorData.toVec (T : ElemTy α) (d : TensorData) :
    Except DataError (List α) :=
  d.asSlice T

/-- `TensorData::into_vec`: requires the dtype tags to match, then
reclaims the buffer as a typed vector whose length is
`bytes.len() / size_of::<E>()` (no checked cast here). -/
def TensorData.intoVec (T : ElemTy α) (d : TensorData) :
    Except DataError (List α) :=
  if T.dtype ≠ d.dtype then
    .error .TypeMismatch
  else
    .ok ((chunks T.width d.bytes).map T.ofBytes)

/-- `TensorData::tensor_bytes`: for `QFloat`, the prefix of the buffer
excluding the trailing packed parameters — always `size_of::<f32>() = 4`
bytes for the scale, plus `size_of::<i8>() = 1` byte when the scheme is
affine; for any other dtype, the whole buffer. -/
def TensorData.tensorBytes (d : TensorData) : List Byte :=
  match d.dtype with
  | .QFloat scheme =>
      let tbEnd := d.bytes.length - 4
      let tbEnd := match scheme with
        | .perTensorAffine .qint8 => tbEnd - 1
        | _ => tbEnd
      d.bytes.take tbEnd
  | _ => d.bytes

/-- `iter::<E>()`, materialized as the list of yielded values.  If the
requested dtype matches the stored one, the buffer is reinterpreted
elementwise (fast path).  Otherwise the stored dtype is dispatched on:
each element is reinterpreted at the stored dtype's width and converted
to the target through the Element conversion contract, modelled by the
function `conv` keyed by the source dtype (`U8` and `Bool` read the raw
bytes directly, which coincides with width-1 chunking); for `QFloat` the
values come from `tensor_bytes()` read as `i8` — the raw quantized codes,
not dequantized. -/
def TensorData.iterE (R : ReadElem β) (conv : DType → List Byte → β)
    (d : TensorData) : List β :=
  if R.dtype = d.dtype then
    (chunks R.width d.bytes).map R.ofBytes
  else
    match d.dtype with
    | .QFloat _ => (chunks 1 d.tensorBytes).map (conv .I8)
    | dt => (chunks dt.size d.bytes).map (conv dt)

/-- `TensorData::convert_inplace::<Current, Target>`: walk the buffer in
windows of `size_of::<Current>()` bytes, reinterpret each window at the
current dtype, convert to the target and write the converted bytes back
into the same window (the eligibility check guarantees the widths match);
the trailing `len % step` bytes are untouched; finally the dtype tag is
updated. -/
def TensorData.convertInplace (T : ElemTy β) (conv : DType → List Byte → β)
    (d : TensorData) : TensorData :=
  let step := d.dtype.size
  { bytes :=
      ((chunks step d.bytes).flatMap fun c => T.toBytes (conv d.dtype c)) ++
        d.bytes.drop (d.bytes.length / step * step),
    shape := d.shape,
    dtype := T.dtype }

/-- `TensorData::convert::<E>()`: no-op when the target dtype equals the
stored one; in-place bit-level conversion when the byte widths agree and
the stored dtype is neither `Bool` nor `QFloat`; otherwise a full
elementwise conversion through `iter` and `new` (whose assertion is the
only possible panic, modelled by `none`). -/
def TensorData.convert (T : ElemTy β) (conv : DType → List Byte → β)
    (d : TensorData) : Option TensorData :=
  if T.dtype = d.dtype then
    some d
  else if T.width = d.dtype.size ∧ d.dtype ≠ .Bool ∧ dtypeIsQFloat d.dtype = false then
    some (d.convertInplace T conv)
  else
    TensorData.new? T (d.iterE T.toRead conv) d.shape

/-- `QParams` (quantization module; transient parameter record). -/
structure QParams (ε κ : Type) where
  scale : ε
  offset : Option κ
  deriving DecidableEq, Repr

/-- `TensorData::get_q_params::<E, Q>()`: `None` unless the dtype is
`QFloat`; otherwise the last `size_of::<E>()` bytes are read (unaligned)
as the scale and, when the scheme is affine, the `size_of::<Q>()` bytes
immediately preceding them as the offset. -/
def TensorData.getQParams (E : ElemTy ε) (Q : ElemTy κ) (d : TensorData) :
    Option (QParams ε κ) :=
  match d.dtype with
  | .QFloat scheme =>
      let total := d.bytes.length
      let scale := E.ofBytes (d.bytes.drop (total - E.width))
      let offset : Option κ :=
        match scheme with
        | .perTensorAffine _ =>
            some (Q.ofBytes
              ((d.bytes.take (total - E.width)).drop (total - E.width - Q.width)))
        | .perTensorSymmetric _ => none
      some { scale := scale, offset := offset }
  | _ => none

/-- `TensorData::dequantize()`: `TypeMismatch` unless the dtype is
`QFloat`; otherwise the parameters are read back via
`get_q_params::<f32, i8>()` and the strategy's dequantization is applied
to `tensor_bytes()` reinterpreted as `i8` codes, the result being rebuilt
through `new` at dtype `F32`.  The strategy's dequantization function
itself lives in the quantization module (not under the provided sources)
and is modelled from the spec as an elementwise map: `fA scale offset`
for the affine inverse formula, `fS scale` for the symmetric one.  The
outer `Option` models panics (`unwrap` and the `new` assertion). -/
def TensorData.dequantize (fA : Bytes4 → Byte → Byte → Bytes4)
    (fS : Bytes4 → Byte → Bytes4) (d : TensorData) :
    Option (Except DataError TensorData) :=
  match d.dtype with
  | .QFloat scheme =>
      match d.getQParams f32E i8E with
      | some qp =>
          match scheme with
          | .perTensorAffine .qint8 =>
              match qp.offset with
              | some o =>
                  (TensorData.new? f32E (d.tensorBytes.map (fA qp.scale o))
                    d.shape).map Except.ok
              | none => none
          | .perTensorSymmetric .qint8 =>
              (TensorData.new? f32E (d.tensorBytes.map (fS qp.scale))
                d.shape).map Except.ok
      | none => none
  | _ => some (.error .TypeMismatch)

/-- `TensorData::random` with the stream of values produced by the
successive `E::random(distribution, rng)` calls abstracted as `g`
(the generator is external to the provided sources): a vector of
`numel shape` sampled values, handed to `new`. -/
def TensorData.randomG (T : ElemTy α) (g : Nat → α) (shape : List Nat) :
    Option TensorData :=
  TensorData.new? T ((List.range (numel shape)).map g) shape

/-- `TensorData::full`: `numel shape` copies of the fill value, handed to
`new`. -/
def TensorData.full (T : ElemTy α) (shape : List Nat) (fill : α) :
    Option TensorData :=
  TensorData.new? T (List.replicate (numel shape) fill) shape

/-- `TensorData::zeros`: `numel shape` copies of `0.elem()` — the target
type's zero, whose value (produced by the external Element conversion) is
the parameter `z`. -/
def TensorData.zeros (T : ElemTy α) (z : α) (shape : List Nat) :
    Option TensorData :=
  TensorData.new? T (List.replicate (numel shape) z) shape

/-- `TensorData::ones`, analogously with `1.elem()` as `o`. -/
def TensorData.ones (T : ElemTy α) (o : α) (shape : List Nat) :
    Option TensorData :=
  TensorData.new? T (List.replicate (numel shape) o) shape

/-- The parameter footprint packed at the tail of a quantized buffer:
4 scale bytes, plus 1 offset byte for the affine scheme. -/
def qparamFootprint : QuantizationScheme → Nat
  | .perTensorAffine _ => 5
  | .perTensorSymmetric _ => 4

/-- Well-formedness of a `TensorData` value: the byte buffer has exactly
the length dictated by the shape and dtype (the §3 invariants; every
constructor establishes this). -/
def TensorData.wfb (d : TensorData) : Bool :=
  match d.dtype with
  | .QFloat scheme => d.bytes.length = numel d.shape + qparamFootprint scheme
  | dt => d.bytes.length = numel d.shape * dt.size

theorem dtype_size_pos (dt : DType) : 0 < dt.size := by
  cases dt <;> simp [DType.size]

theorem length_valueIntoBytes (T : ElemTy α) (v : List α) :
    (valueIntoBytes T v).length = v.length * T.width := by
  induction v with
  | nil => simp [valueIntoBytes]
  | cons x xs ih =>
      simp only [valueIntoBytes, List.flatMap_cons, List.length_append,
        List.length_cons] at ih ⊢
      rw [T.length_toBytes, ih, Nat.succ_mul, Nat.add_comm]

theorem chunks_valueIntoBytes (T : ElemTy α) (v : List α) :
    chunks T.width (valueIntoBytes T v) = v.map T.toBytes :=
  chunks_flatMap T.width T.width_pos T.toBytes T.length_toBytes v

theorem decode_valueIntoBytes (T : ElemTy α) (v : List α) :
    (chunks T.width (valueIntoBytes T v)).map T.ofBytes = v := by
  rw [chunks_valueIntoBytes, List.map_map]
  have : ∀ a ∈ v, (T.ofBytes ∘ T.toBytes) a = id a := by
    intro a _
    simp [T.ofBytes_toBytes]
  rw [List.map_congr_left this, List.map_id]

theorem new?_of_take_length (T : ElemTy α) (value : List α) (shape : List Nat)
    (h : numel shape ≤ value.length) :
    TensorData.new? T value shape =
      some (TensorData.init T (value.take (numel shape)) shape T.dtype) := by
  unfold TensorData.new?
  rw [if_pos]
  simp [List.length_take, Nat.min_eq_left h]

theorem new?_of_length_eq (T : ElemTy α) (value : List α) (shape : List Nat)
    (h : value.length = numel shape) :
    TensorData.new? T value shape =
      some (TensorData.init T value shape T.dtype) := by
  rw [new?_of_take_length T value shape (le_of_eq h.symm), ← h, List.take_length]

theorem iterE_not_qfloat (R : ReadElem β) (conv : DType → List Byte → β)
    (d : TensorData) (hne : R.dtype ≠ d.dtype)
    (hq : dtypeIsQFloat d.dtype = false) :
    d.iterE R conv = (chunks d.dtype.size d.bytes).map (conv d.dtype) := by
  rw [TensorData.iterE, if_neg hne]
  rcases d with ⟨b, s, dt⟩
  cases dt <;> first | rfl | simp [dtypeIsQFloat] at hq

theorem iterE_qfloat (R : ReadElem β) (conv : DType → List Byte → β)
    (d : TensorData) (scheme : QuantizationScheme)
    (hd : d.dtype = .QFloat scheme) (hne : R.dtype ≠ d.dtype) :
    d.iterE R conv = (chunks 1 d.tensorBytes).map (conv .I8) := by
  rw [TensorData.iterE, if_neg hne]
  rcases d with ⟨b, s, dt⟩
  cases dt <;> first | rfl | simp at hd

/-- The fast path of `iter` (matching dtypes) reads the buffer itself. -/
theorem iterE_fast (R : ReadElem β) (conv : DType → List Byte → β)
    (d : TensorData) (he : R.dtype = d.dtype) :
    d.iterE R conv = (chunks R.width d.bytes).map R.ofBytes := by
  rw [TensorData.iterE, if_pos he]

/-- C3: `new(values, shape)` first truncates `values` to `numel(shape)`
elements and then panics exactly when the truncated length still differs
from `numel(shape)`; equivalently it succeeds exactly when
`values.len() ≥ numel(shape)`, silently discarding surplus elements, and
on success stores the truncated values. -/
theorem claim_C3_new_truncates_then_asserts (T : ElemTy α) (value : List α)
    (shape : List Nat) :
    ((TensorData.new? T value shape).isSome ↔ numel shape ≤ value.length) ∧
    (∀ d, TensorData.new? T value shape = some d →
      d = TensorData.init T (value.take (numel shape)) shape T.dtype) := by
  constructor
  · unfold TensorData.new?
    constructor
    · intro h
      by_cases hc : (value.take (numel shape)).length = numel shape
      · rw [List.length_take] at hc
        omega
      · rw [if_neg hc] at h
        simp at h
    · intro h
      rw [if_pos (by simp [List.length_take, Nat.min_eq_left h])]
      simp
  · intro d hd
    by_cases h : numel shape ≤ value.length
    · rw [new?_of_take_length T value shape h] at hd
      exact (Option.some_inj.mp hd).symm
    · exfalso
      unfold TensorData.new? at hd
      rw [if_neg (by rw [List.length_take]; omega)] at hd
      exact Option.noConfusion hd

theorem claim_C3_witness :
    (⟨[0, 1], [2], .I8⟩ : TensorData) =
      TensorData.init i8E ([0, 1, 2].take (numel [2])) [2] i8E.dtype :=
  (claim_C3_new_truncates_then_asserts i8E [0, 1, 2] [2]).2
    ⟨[0, 1], [2], .I8⟩ (by decide)

theorem isQFloat_iff (dt : DType) :
    dtypeIsQFloat dt = true ↔ ∃ s, dt = .QFloat s := by
  cases dt <;> simp [dtypeIsQFloat]

theorem tensorBytes_nil_bytes (d : TensorData) (h : d.bytes = []) :
    d.tensorBytes = [] := by
  rcases d with ⟨b, s, dt⟩
  simp only at h
  subst h
  rw [TensorData.tensorBytes]
  cases dt <;> simp

theorem asSlice_init_self (T : ElemTy α) (v : List α) (s : List Nat) :
    (TensorData.init T v s T.dtype).asSlice T = .ok v := by
  have hdvd : T.width ∣ (TensorData.init T v s T.dtype).bytes.length := by
    rw [show (TensorData.init T v s T.dtype).bytes = valueIntoBytes T v from rfl,
      length_valueIntoBytes]
    exact Dvd.intro_left v.length rfl
  rw [TensorData.asSlice,
    if_pos (show T.dtype = (TensorData.init T v s T.dtype).dtype from rfl),
    if_pos hdvd,
    show (TensorData.init T v s T.dtype).bytes = valueIntoBytes T v from rfl,
    decode_valueIntoBytes]

theorem intoVec_init_self (T : ElemTy α) (v : List α) (s : List Nat) :
    (TensorData.init T v s T.dtype).intoVec T = .ok v := by
  rw [TensorData.intoVec,
    if_neg (show ¬T.dtype ≠ (TensorData.init T v s T.dtype).dtype from
      fun h => h rfl),
    show (TensorData.init T v s T.dtype).bytes = valueIntoBytes T v from rfl,
    decode_valueIntoBytes]

/-- Every `iter` on a data value with an empty byte buffer yields the
empty sequence. -/
theorem iterE_nil_bytes (R : ReadElem β) (conv : DType → List Byte → β)
    (d : TensorData) (h : d.bytes = []) : d.iterE R conv = [] := by
  by_cases he : R.dtype = d.dtype
  · rw [iterE_fast R conv d he, h, chunks_nil, List.map_nil]
  · by_cases hq : dtypeIsQFloat d.dtype = true
    · obtain ⟨s, hs⟩ := (isQFloat_iff d.dtype).mp hq
      rw [iterE_qfloat R conv d s hs he, tensorBytes_nil_bytes d h,
        chunks_nil, List.map_nil]
    · rw [iterE_not_qfloat R conv d he (Bool.eq_false_iff.mpr hq),
        h, chunks_nil, List.map_nil]

/-- C10: a shape containing a zero-sized dimension has `numel = 0`, so
`new` succeeds whatever the input values (all of them are truncated
away), produces an empty byte buffer, and `iter`, `to_vec` and
`into_vec` on the result all yield the empty sequence. -/
theorem claim_C10_zero_dim_shape (T : ElemTy α) (value : List α)
    (shape : List Nat) (h0 : 0 ∈ shape) :
    numel shape = 0 ∧
    TensorData.new? T value shape =
      some (TensorData.init T [] shape T.dtype) ∧
    (TensorData.init T [] shape T.dtype).bytes = [] ∧
    (∀ (β : Type) (R : ReadElem β) (conv : DType → List Byte → β),
      (TensorData.init T [] shape T.dtype).iterE R conv = []) ∧
    (TensorData.init T [] shape T.dtype).toVec T = .ok [] ∧
    (TensorData.init T [] shape T.dtype).intoVec T = .ok [] := by
  have hz : numel shape = 0 := List.prod_eq_zero h0
  have hbytes : (TensorData.init T [] shape T.dtype).bytes = [] := rfl
  refine ⟨hz, ?_, hbytes, ?_, ?_, ?_⟩
  · rw [new?_of_take_length T value shape (by omega), hz, List.take_zero]
  · intro β R conv
    exact iterE_nil_bytes R conv _ hbytes
  · rw [TensorData.toVec]
    exact asSlice_init_self T [] shape
  · exact intoVec_init_self T [] shape

theorem claim_C10_witness :
    numel [2, 0] = 0 ∧
    TensorData.new? i8E [5, 6, 7] [2, 0] =
      some (TensorData.init i8E [] [2, 0] i8E.dtype) ∧
    (TensorData.init i8E [] [2, 0] i8E.dtype).bytes = [] ∧
    (∀ (β : Type) (R : ReadElem β) (conv : DType → List Byte → β),
      (TensorData.init i8E [] [2, 0] i8E.dtype).iterE R conv = []) ∧
    (TensorData.init i8E [] [2, 0] i8E.dtype).toVec i8E = .ok [] ∧
    (TensorData.init i8E [] [2, 0] i8E.dtype).intoVec i8E = .ok [] :=
  claim_C10_zero_dim_shape i8E [5, 6, 7] [2, 0] (by decide)

/-- C2: for every element type and every value sequence whose length
equals `numel(shape)`, `new(values, shape).into_vec::<E>()` returns the
original values, and those equal the sequence produced by `iter::<E>()`
on the same data. -/
theorem claim_C2_roundtrip (T : ElemTy α) (value : List α)
    (shape : List Nat) (h : value.length = numel shape) :
    TensorData.new? T value shape =
      some (TensorData.init T value shape T.dtype) ∧
    (TensorData.init T value shape T.dtype).intoVec T = .ok value ∧
    (∀ conv : DType → List Byte → α,
      (TensorData.init T value shape T.dtype).iterE T.toRead conv = value) := by
  refine ⟨new?_of_length_eq T value shape h, ?_, ?_⟩
  · rw [TensorData.intoVec, if_neg (by simp [TensorData.init])]
    rw [show (TensorData.init T value shape T.dtype).bytes
        = valueIntoBytes T value from rfl, decode_valueIntoBytes]
  · intro conv
    rw [iterE_fast T.toRead conv _ rfl]
    exact decode_valueIntoBytes T value

theorem claim_C2_witness :
    TensorData.new? i8E [9, 8, 7, 6] [2, 2] =
      some (TensorData.init i8E [9, 8, 7, 6] [2, 2] i8E.dtype) ∧
    (TensorData.init i8E [9, 8, 7, 6] [2, 2] i8E.dtype).intoVec i8E =
      .ok [9, 8, 7, 6] ∧
    (TensorData.init i8E [9, 8, 7, 6] [2, 2] i8E.dtype).iterE i8E.toRead
      (fun _ _ => 0) = [9, 8, 7, 6] := by
  have h := claim_C2_roundtrip i8E [9, 8, 7, 6] [2, 2] (by decide)
  exact ⟨h.1, h.2.1, h.2.2 (fun _ _ => 0)⟩

theorem length_flatMap_const (l : List γ) (f : γ → List Byte) (w : Nat)
    (hf : ∀ c ∈ l, (f c).length = w) : (l.flatMap f).length = l.length * w := by
  induction l with
  | nil => simp
  | cons x xs ih =>
      simp only [List.flatMap_cons, List.length_append, List.length_cons]
      rw [hf x (by simp), ih (fun c hc => hf c (by simp [hc])), Nat.succ_mul,
        Nat.add_comm]

theorem new?_inv (T : ElemTy α) (value : List α) (shape : List Nat)
    (d : TensorData) (h : TensorData.new? T value shape = some d) :
    d.shape = shape ∧ d.dtype = T.dtype ∧
    d.bytes.length = numel shape * T.width := by
  unfold TensorData.new? at h
  by_cases hc : (value.take (numel shape)).length = numel shape
  · rw [if_pos hc] at h
    cases h
    refine ⟨rfl, rfl, ?_⟩
    rw [show (TensorData.init T (value.take (numel shape)) shape T.dtype).bytes
        = valueIntoBytes T (value.take (numel shape)) from rfl,
      length_valueIntoBytes, hc]
  · rw [if_neg hc] at h
    exact Option.noConfusion h

theorem wfb_not_qfloat (d : TensorData) (hq : dtypeIsQFloat d.dtype = false)
    (h : d.wfb = true) :
    d.bytes.length = numel d.shape * d.dtype.size := by
  rcases d with ⟨b, s, dt⟩
  rw [TensorData.wfb] at h
  cases dt <;> simp_all [dtypeIsQFloat]

theorem wfb_qfloat (d : TensorData) (s : QuantizationScheme)
    (hd : d.dtype = .QFloat s) (h : d.wfb = true) :
    d.bytes.length = numel d.shape + qparamFootprint s := by
  rcases d with ⟨b, sh, dt⟩
  simp only at hd
  subst hd
  rw [TensorData.wfb] at h
  simpa using h

/-- C4: every non-quantized `TensorData` produced by `new`, `random`,
`zeros`, `ones`, `full` or `convert` satisfies
`numel(shape) = bytes.len() / dtype.width()` (and the exact form
`bytes.len() = numel(shape) * dtype.width()`). -/
theorem claim_C4_constructor_invariant (T : ElemTy α) :
    (∀ (value : List α) (shape : List Nat) (d : TensorData),
      TensorData.new? T value shape = some d →
        d.bytes.length = numel d.shape * d.dtype.size ∧
        numel d.shape = d.bytes.length / d.dtype.size) ∧
    (∀ (g : Nat → α) (shape : List Nat) (d : TensorData),
      TensorData.randomG T g shape = some d →
        d.bytes.length = numel d.shape * d.dtype.size ∧
        numel d.shape = d.bytes.length / d.dtype.size) ∧
    (∀ (z : α) (shape : List Nat) (d : TensorData),
      TensorData.zeros T z shape = some d →
        d.bytes.length = numel d.shape * d.dtype.size ∧
        numel d.shape = d.bytes.length / d.dtype.size) ∧
    (∀ (o : α) (shape : List Nat) (d : TensorData),
      TensorData.ones T o shape = some d →
        d.bytes.length = numel d.shape * d.dtype.size ∧
        numel d.shape = d.bytes.length / d.dtype.size) ∧
    (∀ (shape : List Nat) (fill : α) (d : TensorData),
      TensorData.full T shape fill = some d →
        d.bytes.length = numel d.shape * d.dtype.size ∧
        numel d.shape = d.bytes.length / d.dtype.size) ∧
    (∀ (conv : DType → List Byte → α) (d0 d : TensorData),
      dtypeIsQFloat T.dtype = false → d0.wfb = true →
      TensorData.convert T conv d0 = some d →
        d.bytes.length = numel d.shape * d.dtype.size ∧
        numel d.shape = d.bytes.length / d.dtype.size) := by
  have base : ∀ (value : List α) (shape : List Nat) (d : TensorData),
      TensorData.new? T value shape = some d →
        d.bytes.length = numel d.shape * d.dtype.size ∧
        numel d.shape = d.bytes.length / d.dtype.size := by
    intro value shape d h
    obtain ⟨hs, hdt, hlen⟩ := new?_inv T value shape d h
    have h1 : d.bytes.length = numel d.shape * d.dtype.size := by
      rw [hlen, hs, hdt, T.width_eq]
    exact ⟨h1, by rw [h1, Nat.mul_div_cancel _ (dtype_size_pos d.dtype)]⟩
  refine ⟨base, ?_, ?_, ?_, ?_, ?_⟩
  · intro g shape d h
    exact base _ shape d h
  · intro z shape d h
    exact base _ shape d h
  · intro o shape d h
    exact base _ shape d h
  · intro shape fill d h
    exact base _ shape d h
  · intro conv d0 d hT hwf h
    unfold TensorData.convert at h
    by_cases h1 : T.dtype = d0.dtype
    · rw [if_pos h1] at h
      cases h
      have hlen := wfb_not_qfloat d0 (h1 ▸ hT) hwf
      exact ⟨hlen, by rw [hlen, Nat.mul_div_cancel _ (dtype_size_pos d0.dtype)]⟩
    · rw [if_neg h1] at h
      by_cases h2 : T.width = d0.dtype.size ∧ d0.dtype ≠ .Bool ∧
          dtypeIsQFloat d0.dtype = false
      · rw [if_pos h2] at h
        cases h
        have hlen := wfb_not_qfloat d0 h2.2.2 hwf
        have hflat : ((chunks d0.dtype.size d0.bytes).flatMap
            fun c => T.toBytes (conv d0.dtype c)).length =
            (chunks d0.dtype.size d0.bytes).length * d0.dtype.size := by
          rw [length_flatMap_const _ _ d0.dtype.size
            (fun c _ => by rw [T.length_toBytes, h2.1])]
        have hdiv : d0.bytes.length / d0.dtype.size = numel d0.shape := by
          rw [hlen, Nat.mul_div_cancel _ (dtype_size_pos d0.dtype)]
        have hb : (d0.convertInplace T conv).bytes.length =
            numel d0.shape * d0.dtype.size := by
          rw [show (d0.convertInplace T conv).bytes =
              ((chunks d0.dtype.size d0.bytes).flatMap
                fun c => T.toBytes (conv d0.dtype c)) ++
              d0.bytes.drop (d0.bytes.length / d0.dtype.size * d0.dtype.size)
            from rfl]
          have hdl : d0.bytes.length / d0.dtype.size * d0.dtype.size =
              d0.bytes.length := by
            rw [hdiv, ← hlen]
          rw [List.length_append, hflat, length_chunks, hdl, List.drop_length]
          simp [hlen]
        have hsz : (d0.convertInplace T conv).dtype.size = d0.dtype.size := by
          rw [show (d0.convertInplace T conv).dtype = T.dtype from rfl,
            ← T.width_eq, h2.1]
        have hsh : (d0.convertInplace T conv).shape = d0.shape := rfl
        refine ⟨by rw [hsh, hsz, hb], ?_⟩
        rw [hsh, hsz, hb, Nat.mul_div_cancel _ (dtype_size_pos d0.dtype)]
      · rw [if_neg h2] at h
        exact base _ d0.shape d h

theorem claim_C4_witness :
    (⟨[7, 7, 7], [3], .I8⟩ : TensorData).bytes.length =
      numel (⟨[7, 7, 7], [3], .I8⟩ : TensorData).shape *
        (⟨[7, 7, 7], [3], .I8⟩ : TensorData).dtype.size ∧
    numel (⟨[7, 7, 7], [3], .I8⟩ : TensorData).shape =
      (⟨[7, 7, 7], [3], .I8⟩ : TensorData).bytes.length /
        (⟨[7, 7, 7], [3], .I8⟩ : TensorData).dtype.size :=
  (claim_C4_constructor_invariant i8E).2.2.2.2.1 [3] 7
    ⟨[7, 7, 7], [3], .I8⟩ (by decide)

theorem flatMap_map_comp (l : List γ) (f : γ → δ) (g : δ → List Byte) :
    (l.map f).flatMap g = l.flatMap (fun c => g (f c)) := by
  induction l with
  | nil => rfl
  | cons x xs ih => simp only [List.map_cons, List.flatMap_cons, ih]

/-- C5: when the target width equals the stored width and the stored
dtype is neither `Bool` nor `QFloat` (and differs from the target),
`convert` takes the in-place bit-level path, whose result has the target
dtype, the same shape, an unchanged buffer length (no reallocation), and
is exactly the `TensorData` the full elementwise path
(`new(iter().collect(), shape)`) would produce. -/
theorem claim_C5_convert_inplace_agrees (T : ElemTy β)
    (conv : DType → List Byte → β) (d : TensorData)
    (hne : T.dtype ≠ d.dtype) (hw : T.width = d.dtype.size)
    (hb : d.dtype ≠ .Bool) (hq : dtypeIsQFloat d.dtype = false)
    (hwf : d.wfb = true) :
    TensorData.convert T conv d = some (d.convertInplace T conv) ∧
    (d.convertInplace T conv).dtype = T.dtype ∧
    (d.convertInplace T conv).shape = d.shape ∧
    (d.convertInplace T conv).bytes.length = d.bytes.length ∧
    TensorData.new? T (d.iterE T.toRead conv) d.shape =
      some (d.convertInplace T conv) := by
  have hlen := wfb_not_qfloat d hq hwf
  have hpos := dtype_size_pos d.dtype
  have hdiv : d.bytes.length / d.dtype.size = numel d.shape := by
    rw [hlen, Nat.mul_div_cancel _ hpos]
  have hdl : d.bytes.length / d.dtype.size * d.dtype.size = d.bytes.length := by
    rw [hdiv, ← hlen]
  have hrem : d.bytes.drop (d.bytes.length / d.dtype.size * d.dtype.size)
      = [] := by
    rw [hdl, List.drop_length]
  have hiter : d.iterE T.toRead conv =
      (chunks d.dtype.size d.bytes).map (conv d.dtype) :=
    iterE_not_qfloat T.toRead conv d hne hq
  have hcount : ((chunks d.dtype.size d.bytes).map (conv d.dtype)).length =
      numel d.shape := by
    rw [List.length_map, length_chunks, hdiv]
  have hbytes : valueIntoBytes T ((chunks d.dtype.size d.bytes).map
        (conv d.dtype)) =
      ((chunks d.dtype.size d.bytes).flatMap
        fun c => T.toBytes (conv d.dtype c)) ++
        d.bytes.drop (d.bytes.length / d.dtype.size * d.dtype.size) := by
    rw [hrem, List.append_nil, valueIntoBytes, flatMap_map_comp]
  have hinit : TensorData.init T
      ((chunks d.dtype.size d.bytes).map (conv d.dtype)) d.shape T.dtype =
      d.convertInplace T conv := by
    simp only [TensorData.init, TensorData.convertInplace]
    rw [hbytes]
  refine ⟨?_, rfl, rfl, ?_, ?_⟩
  · rw [TensorData.convert, if_neg hne, if_pos ⟨hw, hb, hq⟩]
  · rw [← hinit,
      show (TensorData.init T ((chunks d.dtype.size d.bytes).map
        (conv d.dtype)) d.shape T.dtype).bytes =
        valueIntoBytes T ((chunks d.dtype.size d.bytes).map (conv d.dtype))
        from rfl,
      length_valueIntoBytes, hcount, hlen, hw]
  · rw [hiter, new?_of_length_eq T _ d.shape hcount, hinit]

theorem claim_C5_witness :
    TensorData.convert i8E (fun _ l => l.getD 0 0)
      ⟨[5, 250], [2], .U8⟩ =
      some ((⟨[5, 250], [2], .U8⟩ : TensorData).convertInplace i8E
        (fun _ l => l.getD 0 0)) :=
  (claim_C5_convert_inplace_agrees i8E (fun _ l => l.getD 0 0)
    ⟨[5, 250], [2], .U8⟩ (by decide) (by decide) (by decide) (by decide)
    (by decide)).1

/-- C7: `convert::<E>()` is idempotent — after one (non-panicking)
application the dtype is `E::dtype()` and a second application returns
the value unchanged; in particular when the stored dtype already equals
`E::dtype()` the conversion is a no-op. -/
theorem claim_C7_convert_idempotent (T : ElemTy β)
    (conv : DType → List Byte → β) (d d' : TensorData)
    (h : TensorData.convert T conv d = some d') :
    TensorData.convert T conv d' = some d' ∧ d'.dtype = T.dtype ∧
    (T.dtype = d.dtype → TensorData.convert T conv d = some d) := by
  have hdt : d'.dtype = T.dtype := by
    rw [TensorData.convert] at h
    by_cases h1 : T.dtype = d.dtype
    · rw [if_pos h1] at h
      cases h
      exact h1.symm
    · rw [if_neg h1] at h
      by_cases h2 : T.width = d.dtype.size ∧ d.dtype ≠ .Bool ∧
          dtypeIsQFloat d.dtype = false
      · rw [if_pos h2] at h
        cases h
        rfl
      · rw [if_neg h2] at h
        exact (new?_inv T _ _ d' h).2.1
  exact ⟨by rw [TensorData.convert, if_pos hdt.symm], hdt,
    fun ht => by rw [TensorData.convert, if_pos ht]⟩

theorem claim_C7_witness :
    TensorData.convert i8E (fun _ l => l.getD 0 0) ⟨[3], [1], .I8⟩ =
      some (⟨[3], [1], .I8⟩ : TensorData) :=
  (claim_C7_convert_idempotent i8E (fun _ l => l.getD 0 0)
    ⟨[3], [1], .I8⟩ ⟨[3], [1], .I8⟩ (by decide)).1

theorem length_tensorBytes_qfloat (d : TensorData) (s : QuantizationScheme)
    (hd : d.dtype = .QFloat s) (hwf : d.wfb = true) :
    d.tensorBytes.length = numel d.shape := by
  have hlen := wfb_qfloat d s hd hwf
  rcases d with ⟨b, sh, dt⟩
  simp only at hd
  subst hd
  simp only [TensorData.wfb] at hlen
  rcases s with ⟨q⟩ | ⟨q⟩ <;> cases q <;>
    · show (b.take _).length = _
      rw [List.length_take]
      simp only [qparamFootprint] at hlen ⊢
      omega

/-- C6: on a `QFloat` tensor, `iter::<E>()` (for a requested dtype other
than the stored one, which holds for every actual element type) reads
only `tensor_bytes()` — the value prefix of exactly `numel(shape)` bytes,
excluding the packed parameters — as signed 8-bit codes and converts each
raw code through the `i8` Element conversion without dequantizing; the
yielded sequence has exactly `numel(shape)` values. -/
theorem claim_C6_qfloat_iter_raw_codes (R : ReadElem β)
    (conv : DType → List Byte → β) (d : TensorData)
    (scheme : QuantizationScheme) (hd : d.dtype = .QFloat scheme)
    (hne : R.dtype ≠ d.dtype) (hwf : d.wfb = true) :
    d.iterE R conv = (chunks 1 d.tensorBytes).map (conv .I8) ∧
    d.tensorBytes = d.bytes.take (numel d.shape) ∧
    (d.iterE R conv).length = numel d.shape := by
  have hiter := iterE_qfloat R conv d scheme hd hne
  have hlen := wfb_qfloat d scheme hd hwf
  have hblen := length_tensorBytes_qfloat d scheme hd hwf
  refine ⟨hiter, ?_, ?_⟩
  · rcases d with ⟨b, sh, dt⟩
    simp only at hd
    subst hd
    rcases scheme with ⟨q⟩ | ⟨q⟩ <;> cases q
    · show b.take (b.length - 4 - 1) = b.take (numel sh)
      have hb : b.length = numel sh + 5 := by
        simpa [qparamFootprint] using hlen
      congr 1
      omega
    · show b.take (b.length - 4) = b.take (numel sh)
      have hb : b.length = numel sh + 4 := by
        simpa [qparamFootprint] using hlen
      congr 1
      omega
  · rw [hiter, List.length_map, length_chunks, Nat.div_one, hblen]

theorem claim_C6_witness :
    (⟨[1, 2, 3, 10, 20, 30, 40], [3],
        .QFloat (.perTensorSymmetric .qint8)⟩ : TensorData).iterE
      ⟨.F32, 4, fun l => l.getD 0 0⟩ (fun _ l => l.getD 0 0) =
      (chunks 1 (⟨[1, 2, 3, 10, 20, 30, 40], [3],
        .QFloat (.perTensorSymmetric .qint8)⟩ : TensorData).tensorBytes).map
        ((fun _ l => l.getD 0 0) DType.I8) :=
  (claim_C6_qfloat_iter_raw_codes ⟨.F32, 4, fun l => l.getD 0 0⟩
    (fun _ l => l.getD 0 0)
    ⟨[1, 2, 3, 10, 20, 30, 40], [3], .QFloat (.perTensorSymmetric .qint8)⟩
    (.perTensorSymmetric .qint8) rfl (by decide) (by decide)).1

/-- The C1 packing layout exactly as the spec words it (refinement
reference, for comparison with the source behaviour): an
affine-quantized buffer built from `n` quantized values ends with the
offset encoded as an `i32` (four bytes) written immediately before the
four `f32` scale bytes — so its total length is `n + 4 + 4` — and
`tensor_bytes()` returns the prefix of `bytes` excluding that trailing
8-byte parameter footprint. -/
def c1SpecLayout (d : TensorData) (n : Nat) : Bool :=
  decide (d.bytes.length = n + 4 + 4) &&
    decide (d.tensorBytes = d.bytes.take (d.bytes.length - (4 + 4)))

/-- C1 counterexample: quantizing the six affine test codes packs only a
single offset byte (total `6 + 1 + 4 = 11` bytes, not `6 + 4 + 4 = 14`)
and `tensor_bytes` drops only 5 trailing bytes, so the spec's i32-offset
layout is violated. -/
theorem claim_C1_counterexample :
    TensorData.quantized? i8E [128, 179, 230, 25, 76, 127] [2, 3]
      (.perTensorAffineInt8 (137, 137, 160, 60) 128) =
      some ⟨[128, 179, 230, 25, 76, 127, 128, 137, 137, 160, 60], [2, 3],
        .QFloat (.perTensorAffine .qint8)⟩ ∧
    c1SpecLayout ⟨[128, 179, 230, 25, 76, 127, 128, 137, 137, 160, 60],
      [2, 3], .QFloat (.perTensorAffine .qint8)⟩ 6 = false := by decide

theorem tensorBytes_affine_packed (vb : List Byte) (scale : Bytes4)
    (offset : Byte) (shape : List Nat) :
    (⟨vb ++ [offset] ++ bytes4 scale, shape,
      .QFloat (.perTensorAffine .qint8)⟩ : TensorData).tensorBytes = vb := by
  show (vb ++ [offset] ++ bytes4 scale).take
    ((vb ++ [offset] ++ bytes4 scale).length - 4 - 1) = vb
  have hA : (vb ++ [offset] ++ bytes4 scale).length = vb.length + 5 := by
    simp [bytes4]
  rw [hA, show vb.length + 5 - 4 - 1 = vb.length from by omega,
    List.append_assoc, List.take_left]

theorem tensorBytes_sym_packed (vb : List Byte) (scale : Bytes4)
    (shape : List Nat) :
    (⟨vb ++ bytes4 scale, shape,
      .QFloat (.perTensorSymmetric .qint8)⟩ : TensorData).tensorBytes = vb := by
  show (vb ++ bytes4 scale).take ((vb ++ bytes4 scale).length - 4) = vb
  have hA : (vb ++ bytes4 scale).length = vb.length + 4 := by
    simp [bytes4]
  rw [hA, show vb.length + 4 - 4 = vb.length from by omega, List.take_left]

theorem getQParams_affine_packed (vb : List Byte) (scale : Bytes4)
    (offset : Byte) (shape : List Nat) :
    (⟨vb ++ [offset] ++ bytes4 scale, shape,
      .QFloat (.perTensorAffine .qint8)⟩ : TensorData).getQParams f32E i8E =
      some ⟨scale, some offset⟩ := by
  have hred : (⟨vb ++ [offset] ++ bytes4 scale, shape,
      .QFloat (.perTensorAffine .qint8)⟩ : TensorData).getQParams f32E i8E =
      some (⟨f32E.ofBytes ((vb ++ [offset] ++ bytes4 scale).drop
          ((vb ++ [offset] ++ bytes4 scale).length - 4)),
        some (i8E.ofBytes (((vb ++ [offset] ++
          bytes4 scale).take ((vb ++ [offset] ++ bytes4 scale).length -
          4)).drop ((vb ++ [offset] ++ bytes4 scale).length - 4 - 1)))⟩ :
        QParams Bytes4 Byte) :=
    rfl
  have hA : (vb ++ [offset] ++ bytes4 scale).length = vb.length + 5 := by
    simp [bytes4]
  have hvo : (vb ++ [offset]).length = vb.length + 1 := by simp
  rw [hred, hA,
    show vb.length + 5 - 4 = vb.length + 1 from by omega,
    show vb.length + 1 - 1 = vb.length from by omega,
    ← hvo, List.drop_left, List.take_left, List.drop_left]
  rfl

theorem getQParams_sym_packed (vb : List Byte) (scale : Bytes4)
    (shape : List Nat) :
    (⟨vb ++ bytes4 scale, shape,
      .QFloat (.perTensorSymmetric .qint8)⟩ : TensorData).getQParams
      f32E i8E = some ⟨scale, none⟩ := by
  have hred : (⟨vb ++ bytes4 scale, shape,
      .QFloat (.perTensorSymmetric .qint8)⟩ : TensorData).getQParams
      f32E i8E =
      some (⟨f32E.ofBytes ((vb ++ bytes4 scale).drop
          ((vb ++ bytes4 scale).length - 4)), none⟩ :
        QParams Bytes4 Byte) := rfl
  have hA : (vb ++ bytes4 scale).length = vb.length + 4 := by
    simp [bytes4]
  rw [hred, hA, show vb.length + 4 - 4 = vb.length from by omega,
    List.drop_left]
  rfl

/-- C1 (amended): for every affine-quantized `TensorData` built by
`quantized(values, shape, PerTensorAffineInt8(strategy))`, the byte
buffer ends with the offset encoded as a single `i8` byte (the
strategy's `Q = i8` offset field — not an i32) written immediately
before the 4-byte `f32` scale (scale last, offset second-to-last), and
`tensor_bytes()` returns exactly the value-byte prefix, excluding the
trailing parameter footprint of one `f32` word plus one `i8` byte, so
that `get_q_params::<f32, i8>` recovers the very scale and offset that
were packed. -/
theorem claim_C1_affine_packing (V : ElemTy α) (value : List α)
    (shape : List Nat) (scale : Bytes4) (offset : Byte)
    (h : numel shape ≤ value.length) :
    TensorData.quantized? V value shape (.perTensorAffineInt8 scale offset) =
      some ⟨valueIntoBytes V (value.take (numel shape)) ++ [offset] ++
        bytes4 scale, shape, .QFloat (.perTensorAffine .qint8)⟩ ∧
    (⟨valueIntoBytes V (value.take (numel shape)) ++ [offset] ++
        bytes4 scale, shape,
      .QFloat (.perTensorAffine .qint8)⟩ : TensorData).tensorBytes =
      valueIntoBytes V (value.take (numel shape)) ∧
    (⟨valueIntoBytes V (value.take (numel shape)) ++ [offset] ++
        bytes4 scale, shape,
      .QFloat (.perTensorAffine .qint8)⟩ : TensorData).getQParams f32E i8E =
      some ⟨scale, some offset⟩ := by
  refine ⟨?_, tensorBytes_affine_packed _ scale offset shape,
    getQParams_affine_packed _ scale offset shape⟩
  simp only [TensorData.quantized?]
  rw [if_pos (by rw [List.length_take]; omega)]
  rfl

theorem claim_C1_affine_packing_witness :
    (⟨valueIntoBytes i8E ([5, 6].take (numel [2])) ++ [17] ++
        bytes4 (1, 2, 3, 4), [2],
      .QFloat (.perTensorAffine .qint8)⟩ : TensorData).getQParams f32E i8E =
      some ⟨(1, 2, 3, 4), some 17⟩ :=
  (claim_C1_affine_packing i8E [5, 6] [2] (1, 2, 3, 4) 17 (by decide)).2.2

theorem getQParams_not_qfloat (E1 : ElemTy ε) (Q1 : ElemTy κ)
    (d : TensorData) (h : dtypeIsQFloat d.dtype = false) :
    d.getQParams E1 Q1 = none := by
  rcases d with ⟨b, sh, dt⟩
  cases dt <;> first | rfl | simp [dtypeIsQFloat] at h

theorem dequantize_not_qfloat (fA : Bytes4 → Byte → Byte → Bytes4)
    (fS : Bytes4 → Byte → Bytes4) (d : TensorData)
    (h : dtypeIsQFloat d.dtype = false) :
    TensorData.dequantize fA fS d = some (.error .TypeMismatch) := by
  rcases d with ⟨b, sh, dt⟩
  cases dt <;> first | rfl | simp [dtypeIsQFloat] at h

theorem dequantize_affine_step (fA : Bytes4 → Byte → Byte → Bytes4)
    (fS : Bytes4 → Byte → Bytes4) (b : List Byte) (sh : List Nat) :
    TensorData.dequantize fA fS
      ⟨b, sh, .QFloat (.perTensorAffine .qint8)⟩ =
      (TensorData.new? f32E
        ((⟨b, sh, .QFloat (.perTensorAffine .qint8)⟩ :
            TensorData).tensorBytes.map
          (fA (f32E.ofBytes (b.drop (b.length - 4)))
            (i8E.ofBytes ((b.take (b.length - 4)).drop
              (b.length - 4 - 1))))) sh).map Except.ok := rfl

theorem dequantize_sym_step (fA : Bytes4 → Byte → Byte → Bytes4)
    (fS : Bytes4 → Byte → Bytes4) (b : List Byte) (sh : List Nat) :
    TensorData.dequantize fA fS
      ⟨b, sh, .QFloat (.perTensorSymmetric .qint8)⟩ =
      (TensorData.new? f32E
        ((⟨b, sh, .QFloat (.perTensorSymmetric .qint8)⟩ :
            TensorData).tensorBytes.map
          (fS (f32E.ofBytes (b.drop (b.length - 4))))) sh).map
        Except.ok := rfl

/-- C8: for every non-`QFloat` `TensorData`, `get_q_params` returns no
parameters and `dequantize` fails with `TypeMismatch`; for every
(well-formed) `QFloat` `TensorData`, `dequantize` succeeds and returns a
new non-quantized `TensorData` of dtype `F32` with the same shape, built
by applying the strategy's inverse (affine or symmetric) formula — the
elementwise maps `fA scale offset` / `fS scale`, with the parameters
recovered by `get_q_params::<f32, i8>` — to each quantized code of
`tensor_bytes()`. -/
theorem claim_C8_qparams_dequantize {ε κ : Type} (E1 : ElemTy ε)
    (Q1 : ElemTy κ) (fA : Bytes4 → Byte → Byte → Bytes4)
    (fS : Bytes4 → Byte → Bytes4) (d : TensorData) :
    (dtypeIsQFloat d.dtype = false →
      d.getQParams E1 Q1 = none ∧
      TensorData.dequantize fA fS d = some (.error .TypeMismatch)) ∧
    (d.wfb = true → d.dtype = .QFloat (.perTensorAffine .qint8) →
      ∀ s o, d.getQParams f32E i8E = some ⟨s, some o⟩ →
        TensorData.dequantize fA fS d = some (.ok
          (TensorData.init f32E (d.tensorBytes.map (fA s o)) d.shape
            .F32)) ∧
        (TensorData.init f32E (d.tensorBytes.map (fA s o)) d.shape
          .F32).dtype = .F32 ∧
        (TensorData.init f32E (d.tensorBytes.map (fA s o)) d.shape
          .F32).shape = d.shape) ∧
    (d.wfb = true → d.dtype = .QFloat (.perTensorSymmetric .qint8) →
      ∀ s, d.getQParams f32E i8E = some ⟨s, none⟩ →
        TensorData.dequantize fA fS d = some (.ok
          (TensorData.init f32E (d.tensorBytes.map (fS s)) d.shape
            .F32)) ∧
        (TensorData.init f32E (d.tensorBytes.map (fS s)) d.shape
          .F32).dtype = .F32 ∧
        (TensorData.init f32E (d.tensorBytes.map (fS s)) d.shape
          .F32).shape = d.shape) := by
  refine ⟨fun h => ⟨getQParams_not_qfloat E1 Q1 d h,
    dequantize_not_qfloat fA fS d h⟩, ?_, ?_⟩
  · intro hwf hd s o hqp
    rcases d with ⟨b, sh, dt⟩
    simp only at hd
    subst hd
    have hq0 : (⟨b, sh, .QFloat (.perTensorAffine .qint8)⟩ :
        TensorData).getQParams f32E i8E =
        some (⟨f32E.ofBytes (b.drop (b.length - 4)),
          some (i8E.ofBytes ((b.take (b.length - 4)).drop
            (b.length - 4 - 1)))⟩ : QParams Bytes4 Byte) := rfl
    rw [hq0] at hqp
    simp only [Option.some.injEq, QParams.mk.injEq] at hqp
    obtain ⟨hs, ho⟩ := hqp
    subst hs
    subst ho
    have hlen : ((⟨b, sh, .QFloat (.perTensorAffine .qint8)⟩ :
        TensorData).tensorBytes.map
        (fA (f32E.ofBytes (b.drop (b.length - 4)))
          (i8E.ofBytes ((b.take (b.length - 4)).drop
            (b.length - 4 - 1))))).length = numel sh := by
      rw [List.length_map]
      exact length_tensorBytes_qfloat _ _ rfl hwf
    refine ⟨?_, rfl, rfl⟩
    rw [dequantize_affine_step, new?_of_length_eq f32E _ sh hlen]
    rfl
  · intro hwf hd s hqp
    rcases d with ⟨b, sh, dt⟩
    simp only at hd
    subst hd
    have hq0 : (⟨b, sh, .QFloat (.perTensorSymmetric .qint8)⟩ :
        TensorData).getQParams f32E i8E =
        some (⟨f32E.ofBytes (b.drop (b.length - 4)), none⟩ :
          QParams Bytes4 Byte) := rfl
    rw [hq0] at hqp
    simp only [Option.some.injEq, QParams.mk.injEq] at hqp
    obtain ⟨hs, _⟩ := hqp
    subst hs
    have hlen : ((⟨b, sh, .QFloat (.perTensorSymmetric .qint8)⟩ :
        TensorData).tensorBytes.map
        (fS (f32E.ofBytes (b.drop (b.length - 4))))).length =
        numel sh := by
      rw [List.length_map]
      exact length_tensorBytes_qfloat _ _ rfl hwf
    refine ⟨?_, rfl, rfl⟩
    rw [dequantize_sym_step, new?_of_length_eq f32E _ sh hlen]
    rfl

theorem claim_C8_witness :
    TensorData.dequantize (fun _ _ c => ((c, 0, 0, 0) : Bytes4))
      (fun _ c => ((c, 0, 0, 0) : Bytes4))
      ⟨[1, 2, 9, 10, 20, 30, 40], [2], .QFloat (.perTensorAffine .qint8)⟩ =
      some (.ok (TensorData.init f32E
        ((⟨[1, 2, 9, 10, 20, 30, 40], [2],
            .QFloat (.perTensorAffine .qint8)⟩ :
          TensorData).tensorBytes.map (fun c => ((c, 0, 0, 0) : Bytes4)))
        [2] .F32)) :=
  ((claim_C8_qparams_dequantize f32E i8E
    (fun _ _ c => ((c, 0, 0, 0) : Bytes4))
    (fun _ c => ((c, 0, 0, 0) : Bytes4))
    ⟨[1, 2, 9, 10, 20, 30, 40], [2],
      .QFloat (.perTensorAffine .qint8)⟩).2.1 (by decide) rfl
    (10, 20, 30, 40) 9 (by decide)).1

/-- Model of an `f64` value as read by `iter::<f64>()` for the
tolerance comparison: not-a-number, a signed infinity, or a finite value
(finite arithmetic is modelled exactly, by a rational). -/
inductive F64 where
  | nan
  | inf (pos : Bool)
  | fin (q : ℚ)
  deriving DecidableEq

/-- `f64::is_nan`. -/
def F64.isNan : F64 → Bool
  | .nan => true
  | _ => false

/-- `f64::is_infinite`. -/
def F64.isInf : F64 → Bool
  | .inf _ => true
  | _ => false

/-- `x > 0.` -/
def F64.gt0 : F64 → Bool
  | .nan => false
  | .inf p => p
  | .fin q => decide (0 < q)

/-- IEEE subtraction on the model (`a - b`). -/
def F64.sub : F64 → F64 → F64
  | .nan, _ => .nan
  | .inf p, .nan => .nan
  | .fin _, .nan => .nan
  | .inf p, .inf r => if p = r then .nan else .inf p
  | .inf p, .fin _ => .inf p
  | .fin _, .inf p => .inf !p
  | .fin a, .fin b => .fin (a - b)

/-- `x.pow(2.0).sqrt`: the square-rooted square, i.e. the absolute value
on finite values, `+inf` on either infinity, NaN on NaN. -/
def F64.sqrtSq : F64 → F64
  | .nan => .nan
  | .inf _ => .inf true
  | .fin q => .fin |q|

/-- `err > tolerance` with a finite tolerance (IEEE: false for NaN). -/
def F64.gtQ : F64 → ℚ → Bool
  | .nan, _ => false
  | .inf p, _ => p
  | .fin q, t => decide (t < q)

/-- `err ≤ tolerance` with a finite tolerance (IEEE: false for NaN). -/
def F64.leQ : F64 → ℚ → Bool
  | .nan, _ => false
  | .inf p, _ => !p
  | .fin q, t => decide (q ≤ t)

/-- The loop body of `assert_approx_eq_diff` at one position: the
position is a difference (counts toward the panic message) unless both
values are NaN or both are same-signed infinities, and otherwise exactly
when `((a - b).pow(2.0)).sqrt` exceeds the tolerance or is NaN. -/
def approxFailPos (a b : F64) (tol : ℚ) : Bool :=
  let bothNan := a.isNan && b.isNan
  let bothInf := a.isInf && b.isInf && (a.gt0 == b.gt0)
  if bothNan || bothInf then false
  else
    let err := (a.sub b).sqrtSq
    err.gtQ tol || err.isNan

/-- The acceptance condition of a position as the claim words it: two
NaNs are equal, two infinities are equal exactly when same-signed, and
otherwise the square-rooted squared absolute difference must be at most
the tolerance. -/
def posAccept (a b : F64) (tol : ℚ) : Bool :=
  if a.isNan && b.isNan then true
  else if a.isInf && b.isInf then a.gt0 == b.gt0
  else (a.sub b).sqrtSq.leQ tol

theorem approxFailPos_eq_not_posAccept (a b : F64) (tol : ℚ) :
    approxFailPos a b tol = !posAccept a b tol := by
  cases a <;> cases b <;>
    simp only [approxFailPos, posAccept, F64.isNan, F64.isInf, F64.sub,
      F64.sqrtSq, F64.gtQ, F64.leQ, F64.gt0, Bool.and_self, Bool.and_false,
      Bool.false_and, Bool.true_and, Bool.and_true, Bool.or_false,
      Bool.false_or, Bool.not_true, Bool.not_false, if_true, if_false,
      Bool.or_true, Bool.true_or] <;>
    first
      | rfl
      | (rename_i p r
         cases p <;> cases r <;> rfl)
      | (rename_i p _
         cases p <;> rfl)
      | (rename_i q r
         simp [← decide_not, not_le])

/-- `assert_approx_eq_diff(other, tolerance)`: it panics exactly when
the message is non-empty, that is, when the shapes differ or some zipped
position (both sequences read as `f64` through `iter`) fails the loop's
test. -/
def TensorData.assertApproxEqDiffPanics (R : ReadElem F64)
    (conv : DType → List Byte → F64) (d other : TensorData) (tol : ℚ) :
    Bool :=
  let pairs := (d.iterE R conv).zip (other.iterE R conv)
  decide (d.shape ≠ other.shape) ||
    decide (0 < (pairs.filter fun p => approxFailPos p.1 p.2 tol).length)

/-- C9: on two tensors of equal shape, `assert_approx_eq_diff` treats a
position where both `f64` values are NaN as equal, a position with two
same-signed infinities as equal, a position with opposite-signed
infinities as unequal, and otherwise accepts a position exactly when the
square-rooted squared absolute difference is at most the tolerance; it
panics if and only if some position is unacceptable. -/
theorem claim_C9_approx_eq_semantics (R : ReadElem F64)
    (conv : DType → List Byte → F64) (d other : TensorData) (tol : ℚ)
    (h : d.shape = other.shape) :
    TensorData.assertApproxEqDiffPanics R conv d other tol = true ↔
      ∃ p ∈ (d.iterE R conv).zip (other.iterE R conv),
        posAccept p.1 p.2 tol = false := by
  have h1 : decide (d.shape ≠ other.shape) = false := by simp [h]
  simp only [TensorData.assertApproxEqDiffPanics, h1, Bool.false_or,
    decide_eq_true_eq]
  constructor
  · intro hp
    obtain ⟨x, hx⟩ := List.exists_mem_of_length_pos hp
    obtain ⟨hmem, hf⟩ := List.mem_filter.mp hx
    refine ⟨x, hmem, ?_⟩
    rw [approxFailPos_eq_not_posAccept] at hf
    cases hb : posAccept x.1 x.2 tol
    · rfl
    · rw [hb] at hf
      exact absurd hf (by decide)
  · rintro ⟨p, hmem, hpa⟩
    have hf : approxFailPos p.1 p.2 tol = true := by
      rw [approxFailPos_eq_not_posAccept, hpa]
      rfl
    exact List.length_pos_of_mem (List.mem_filter.mpr ⟨hmem, hf⟩)

theorem claim_C9_witness :
    TensorData.assertApproxEqDiffPanics
      ⟨.F64, 8, fun l => if l.getD 0 0 = 0 then F64.inf true
        else F64.inf false⟩
      (fun _ _ => F64.nan)
      ⟨List.replicate 8 0, [1], .F64⟩ ⟨List.replicate 8 1, [1], .F64⟩ 1 =
      true :=
  (claim_C9_approx_eq_semantics
    ⟨.F64, 8, fun l => if l.getD 0 0 = 0 then F64.inf true
      else F64.inf false⟩
    (fun _ _ => F64.nan)
    ⟨List.replicate 8 0, [1], .F64⟩ ⟨List.replicate 8 1, [1], .F64⟩ 1
    rfl).mpr (by decide)
